import Mathlib

/-!
Formal model of the classification engine of `analyze-stacksplit`
(`analyzer.go`).  The tool scans the text output of a disassembler line by
line, groups lines into function bodies, and assigns each function one of
four categories (`Leaf`, `NoSplit`, `SplitSmall`, `SplitLarge`) according to
which call targets occur in its body.  All IO (invoking objdump, ELF
checks, printing) is outside the model; the model covers the pure core:
the four line regexes, the per-line state transitions of `examineFile`'s
scanner loop, `recordFunc`, and `analyze`.
-/

/-- Go `FnType` constants from `analyzer.go` (`Unknown = 0`, then `Leaf`,
`NoSplit`, `SplitSmall`, `SplitLarge`). -/
inductive FnType where
  | Unknown
  | Leaf
  | NoSplit
  | SplitSmall
  | SplitLarge
deriving DecidableEq, Repr

/-- Numeric value of each `FnType` constant, as declared by the Go `iota`
block; the Go comparison `odisp > disp` is comparison of these values. -/
def FnType.toNat : FnType → Nat
  | .Unknown => 0
  | .Leaf => 1
  | .NoSplit => 2
  | .SplitSmall => 3
  | .SplitLarge => 4

theorem FnType.toNat_inj {a b : FnType} (h : a.toNat = b.toNat) : a = b := by
  cases a <;> cases b <;> first | rfl | exact absurd h (by decide)

/-- Go regexp character class `\s`, namely `[\t\n\f\r ]`. -/
def isSpaceGo (c : Char) : Bool :=
  c == ' ' || c == '\t' || c == '\n' || c == '\x0c' || c == '\r'

/-- A single-character pattern item of the regexes in `examineFile`:
a literal character, `\s`, `\S`, or `.` (any character but newline). -/
inductive CKind where
  | lit (a : Char)
  | spc
  | nspc
  | dot
deriving DecidableEq, Repr

def CKind.matchesChar : CKind → Char → Bool
  | .lit a, c => a == c
  | .spc, c => isSpaceGo c
  | .nspc, c => !isSpaceGo c
  | .dot, c => !(c == '\n')

/-- One token of a linearized regex: a single occurrence of a class, a
greedy `*` or `+` over a class, or a capturing `(X+)` over a class
(`gstar` is the internal continuation state of a capture group).  The four
regexes in `examineFile` only ever quantify or capture single-character
classes, so this token language covers them exactly. -/
inductive RTok where
  | one (k : CKind)
  | star (k : CKind)
  | plus (k : CKind)
  | gplus (k : CKind)
  | gstar (k : CKind)
deriving DecidableEq, Repr

/-- Fueled greedy backtracking matcher for an anchored (`^ ... $`) regex
given as a token list.  Returns `some cap` on a full match, where `cap` is
the text of the (single) capture group, or `[]` if the regex has none.
Greedy quantifiers consume as much as possible and backtrack, matching
Go's leftmost-first submatch semantics for these patterns.  Each recursive
call shrinks `ts.length + cs.length`, so fuel `ts.length + cs.length + 1`
is always sufficient (`reMatchF_congr`). -/
def reMatchF : Nat → List RTok → List Char → Option (List Char)
  | 0, _, _ => none
  | _ + 1, [], [] => some []
  | _ + 1, [], _ :: _ => none
  | _ + 1, .one _ :: _, [] => none
  | f + 1, .one k :: ts, c :: cs =>
      if k.matchesChar c then reMatchF f ts cs else none
  | f + 1, .star _ :: ts, [] => reMatchF f ts []
  | f + 1, .star k :: ts, c :: cs =>
      if k.matchesChar c then
        match reMatchF f (.star k :: ts) cs with
        | some cap => some cap
        | none => reMatchF f ts (c :: cs)
      else reMatchF f ts (c :: cs)
  | _ + 1, .plus _ :: _, [] => none
  | f + 1, .plus k :: ts, c :: cs =>
      if k.matchesChar c then reMatchF f (.star k :: ts) cs else none
  | _ + 1, .gplus _ :: _, [] => none
  | f + 1, .gplus k :: ts, c :: cs =>
      if k.matchesChar c then
        match reMatchF f (.gstar k :: ts) cs with
        | some cap => some (c :: cap)
        | none => none
      else none
  | f + 1, .gstar _ :: ts, [] =>
      match reMatchF f ts [] with
      | some _ => some []
      | none => none
  | f + 1, .gstar k :: ts, c :: cs =>
      if k.matchesChar c then
        match reMatchF f (.gstar k :: ts) cs with
        | some cap => some (c :: cap)
        | none =>
          match reMatchF f ts (c :: cs) with
          | some _ => some []
          | none => none
      else
        match reMatchF f ts (c :: cs) with
        | some _ => some []
        | none => none

theorem reMatchF_congr :
    ∀ (f1 f2 : Nat) (ts : List RTok) (cs : List Char),
      ts.length + cs.length < f1 → ts.length + cs.length < f2 →
      reMatchF f1 ts cs = reMatchF f2 ts cs := by
  intro f1
  induction f1 with
  | zero => intro f2 ts cs h1 _; exact absurd h1 (by omega)
  | succ a ih =>
    intro f2 ts cs h1 h2
    match f2, h2 with
    | b + 1, h2 =>
      match ts, cs with
      | [], [] => rfl
      | [], _ :: _ => rfl
      | .one _ :: _, [] => rfl
      | .one k :: ts, c :: cs =>
        simp only [reMatchF]
        have hl : ts.length + cs.length < a := by
          simp only [List.length_cons] at h1; omega
        have hr : ts.length + cs.length < b := by
          simp only [List.length_cons] at h2; omega
        rw [ih b ts cs hl hr]
      | .star k :: ts, [] =>
        simp only [reMatchF]
        have hl : ts.length + ([] : List Char).length < a := by
          simp only [List.length_cons] at h1; simp; omega
        have hr : ts.length + ([] : List Char).length < b := by
          simp only [List.length_cons] at h2; simp; omega
        rw [ih b ts [] hl hr]
      | .star k :: ts, c :: cs =>
        simp only [reMatchF]
        have hl1 : (RTok.star k :: ts).length + cs.length < a := by
          simp only [List.length_cons] at h1 ⊢; omega
        have hr1 : (RTok.star k :: ts).length + cs.length < b := by
          simp only [List.length_cons] at h2 ⊢; omega
        have hl2 : ts.length + (c :: cs).length < a := by
          simp only [List.length_cons] at h1 ⊢; omega
        have hr2 : ts.length + (c :: cs).length < b := by
          simp only [List.length_cons] at h2 ⊢; omega
        rw [ih b (.star k :: ts) cs hl1 hr1, ih b ts (c :: cs) hl2 hr2]
      | .plus _ :: _, [] => rfl
      | .plus k :: ts, c :: cs =>
        simp only [reMatchF]
        have hl : (RTok.star k :: ts).length + cs.length < a := by
          simp only [List.length_cons] at h1 ⊢; omega
        have hr : (RTok.star k :: ts).length + cs.length < b := by
          simp only [List.length_cons] at h2 ⊢; omega
        rw [ih b (.star k :: ts) cs hl hr]
      | .gplus _ :: _, [] => rfl
      | .gplus k :: ts, c :: cs =>
        simp only [reMatchF]
        have hl : (RTok.gstar k :: ts).length + cs.length < a := by
          simp only [List.length_cons] at h1 ⊢; omega
        have hr : (RTok.gstar k :: ts).length + cs.length < b := by
          simp only [List.length_cons] at h2 ⊢; omega
        rw [ih b (.gstar k :: ts) cs hl hr]
      | .gstar _ :: ts, [] =>
        simp only [reMatchF]
        have hl : ts.length + ([] : List Char).length < a := by
          simp only [List.length_cons] at h1; simp; omega
        have hr : ts.length + ([] : List Char).length < b := by
          simp only [List.length_cons] at h2; simp; omega
        rw [ih b ts [] hl hr]
      | .gstar k :: ts, c :: cs =>
        simp only [reMatchF]
        have hl1 : (RTok.gstar k :: ts).length + cs.length < a := by
          simp only [List.length_cons] at h1 ⊢; omega
        have hr1 : (RTok.gstar k :: ts).length + cs.length < b := by
          simp only [List.length_cons] at h2 ⊢; omega
        have hl2 : ts.length + (c :: cs).length < a := by
          simp only [List.length_cons] at h1 ⊢; omega
        have hr2 : ts.length + (c :: cs).length < b := by
          simp only [List.length_cons] at h2 ⊢; omega
        rw [ih b (.gstar k :: ts) cs hl1 hr1, ih b ts (c :: cs) hl2 hr2]

/-- Full anchored match of token list `ts` against `cs`. -/
def reMatch (ts : List RTok) (cs : List Char) : Option (List Char) :=
  reMatchF (ts.length + cs.length + 1) ts cs

theorem reMatch_nil_nil : reMatch [] [] = some [] := rfl

theorem reMatch_nil_cons (c : Char) (cs : List Char) :
    reMatch [] (c :: cs) = none := rfl

theorem reMatch_one_nil (k : CKind) (ts : List RTok) :
    reMatch (.one k :: ts) [] = none := rfl

theorem reMatch_one_cons (k : CKind) (ts : List RTok) (c : Char) (cs : List Char) :
    reMatch (.one k :: ts) (c :: cs) =
      if k.matchesChar c then reMatch ts cs else none := by
  have step : reMatch (.one k :: ts) (c :: cs) =
      if k.matchesChar c then
        reMatchF ((RTok.one k :: ts).length + (c :: cs).length) ts cs
      else none := rfl
  rw [step, reMatchF_congr ((RTok.one k :: ts).length + (c :: cs).length)
    (ts.length + cs.length + 1) ts cs
    (by first | (simp only [List.length_cons, List.length_nil]; omega) | omega) (by first | (simp only [List.length_cons, List.length_nil]; omega) | omega)]
  rfl

theorem reMatch_star_nil (k : CKind) (ts : List RTok) :
    reMatch (.star k :: ts) [] = reMatch ts [] := by
  have step : reMatch (.star k :: ts) [] =
      reMatchF ((RTok.star k :: ts).length + ([] : List Char).length) ts [] := rfl
  rw [step, reMatchF_congr ((RTok.star k :: ts).length + ([] : List Char).length)
    (ts.length + ([] : List Char).length + 1) ts []
    (by first | (simp only [List.length_cons, List.length_nil]; omega) | omega)
    (by first | (simp only [List.length_cons, List.length_nil]; omega) | omega)]
  rfl

theorem reMatch_star_cons (k : CKind) (ts : List RTok) (c : Char) (cs : List Char) :
    reMatch (.star k :: ts) (c :: cs) =
      if k.matchesChar c then
        match reMatch (.star k :: ts) cs with
        | some cap => some cap
        | none => reMatch ts (c :: cs)
      else reMatch ts (c :: cs) := by
  have step : reMatch (.star k :: ts) (c :: cs) =
      (if k.matchesChar c then
        match reMatchF ((RTok.star k :: ts).length + (c :: cs).length) (.star k :: ts) cs with
        | some cap => some cap
        | none => reMatchF ((RTok.star k :: ts).length + (c :: cs).length) ts (c :: cs)
      else reMatchF ((RTok.star k :: ts).length + (c :: cs).length) ts (c :: cs)) := rfl
  rw [step,
    reMatchF_congr ((RTok.star k :: ts).length + (c :: cs).length)
      ((RTok.star k :: ts).length + cs.length + 1) (.star k :: ts) cs
      (by first | (simp only [List.length_cons, List.length_nil]; omega) | omega) (by first | (simp only [List.length_cons, List.length_nil]; omega) | omega),
    reMatchF_congr ((RTok.star k :: ts).length + (c :: cs).length)
      (ts.length + (c :: cs).length + 1) ts (c :: cs)
      (by first | (simp only [List.length_cons, List.length_nil]; omega) | omega) (by first | (simp only [List.length_cons, List.length_nil]; omega) | omega)]
  rfl

theorem reMatch_plus_nil (k : CKind) (ts : List RTok) :
    reMatch (.plus k :: ts) [] = none := rfl

theorem reMatch_plus_cons (k : CKind) (ts : List RTok) (c : Char) (cs : List Char) :
    reMatch (.plus k :: ts) (c :: cs) =
      if k.matchesChar c then reMatch (.star k :: ts) cs else none := by
  have step : reMatch (.plus k :: ts) (c :: cs) =
      if k.matchesChar c then
        reMatchF ((RTok.plus k :: ts).length + (c :: cs).length) (.star k :: ts) cs
      else none := rfl
  rw [step, reMatchF_congr ((RTok.plus k :: ts).length + (c :: cs).length)
    ((RTok.star k :: ts).length + cs.length + 1) (.star k :: ts) cs
    (by first | (simp only [List.length_cons, List.length_nil]; omega) | omega) (by first | (simp only [List.length_cons, List.length_nil]; omega) | omega)]
  rfl

/-! ### The four line regexes of `examineFile`

Each Lean definition linearizes the corresponding Go regexp literally,
token by token. -/

/-- `^\S+\s\<(\S+)\>\:\s*$` (`fnstart` in `examineFile`). -/
def fnstartRe : List RTok :=
  [.plus .nspc, .one .spc, .one (.lit '<'), .gplus .nspc,
   .one (.lit '>'), .one (.lit ':'), .star .spc]

/-- `^\s*\S+:\s+callq(.+)$` (`anycallre` in `examineFile`). -/
def anycallRe : List RTok :=
  [.star .spc, .plus .nspc, .one (.lit ':'), .plus .spc,
   .one (.lit 'c'), .one (.lit 'a'), .one (.lit 'l'), .one (.lit 'l'), .one (.lit 'q'),
   .gplus .dot]

/-- `^\s*\S+\:\s+callq\s+\S+\s+\<(\S+)\>\s*$` (`dircallre` in `examineFile`). -/
def dircallRe : List RTok :=
  [.star .spc, .plus .nspc, .one (.lit ':'), .plus .spc,
   .one (.lit 'c'), .one (.lit 'a'), .one (.lit 'l'), .one (.lit 'l'), .one (.lit 'q'),
   .plus .spc, .plus .nspc, .plus .spc, .one (.lit '<'), .gplus .nspc,
   .one (.lit '>'), .star .spc]

/-- `^\s*\S+\:\s+jmpq\s+\S+\s+\<\S+@plt\>\s*$` (`pltjumpre` in `examineFile`). -/
def pltjumpRe : List RTok :=
  [.star .spc, .plus .nspc, .one (.lit ':'), .plus .spc,
   .one (.lit 'j'), .one (.lit 'm'), .one (.lit 'p'), .one (.lit 'q'),
   .plus .spc, .plus .nspc, .plus .spc, .one (.lit '<'),
   .plus .nspc, .one (.lit '@'), .one (.lit 'p'), .one (.lit 'l'), .one (.lit 't'),
   .one (.lit '>'), .star .spc]

/-! ### Line classification observables -/

/-- The line is a function-start marker (`fnstart` matches). -/
def isFnStart (l : String) : Bool := (reMatch fnstartRe l.data).isSome

/-- The line is a direct call (`dircallre` matches). -/
def isDirCall (l : String) : Bool := (reMatch dircallRe l.data).isSome

/-- Target symbol of a direct-call line (submatch 1 of `dircallre`). -/
def dirCallTgt (l : String) : Option String :=
  (reMatch dircallRe l.data).map String.mk

/-- The line is some call (`anycallre` matches). -/
def isAnyCall (l : String) : Bool := (reMatch anycallRe l.data).isSome

/-- The line is an unconditional jump to a `@plt` symbol (`pltjumpre`). -/
def isPltJump (l : String) : Bool := (reMatch pltjumpRe l.data).isSome

/-- Direct call whose target is the short helper `__morestack`. -/
def isShortCall (l : String) : Bool :=
  match reMatch dircallRe l.data with
  | some cap => decide (String.mk cap = "__morestack")
  | none => false

/-- Direct call whose target is the long helper `__morestack_non_split`. -/
def isLongCall (l : String) : Bool :=
  match reMatch dircallRe l.data with
  | some cap => decide (String.mk cap = "__morestack_non_split")
  | none => false

/-- The line matches at least one of the three call patterns, i.e. it can
set `seenCall`. -/
def isCallRelevant (l : String) : Bool := isPltJump l || isDirCall l || isAnyCall l

/-! ### The `funcs` table

The Go `map[string]FnType` is modeled as an association list with unique
keys; insertion replaces any existing binding of the key. -/

/-- Lookup in the `funcs` table (Go `s.funcs[fname]` with `ok` flag). -/
def lookupTab : List (String × FnType) → String → Option FnType
  | [], _ => none
  | (k, v) :: t, f => if k = f then some v else lookupTab t f

/-- Map update `s.funcs[fname] = disp`: drop any existing binding of the
key and add the new one. -/
def mapInsert (m : List (String × FnType)) (k : String) (v : FnType) :
    List (String × FnType) :=
  m.filter (fun p => p.1 != k) ++ [(k, v)]

/-- The mutable per-file analysis state `astate` of `analyzer.go`
(`collisions` is a Go `int64`, modeled as `Int`). -/
structure astate where
  seenShort : Bool
  seenLong : Bool
  seenCall : Bool
  funcs : List (String × FnType)
  collisions : Int
deriving DecidableEq, Repr

/-- The category computed at the top of `recordFunc` from the three flags. -/
def dispOf (s : astate) : FnType :=
  if s.seenLong then .SplitLarge
  else if s.seenShort then .SplitSmall
  else if s.seenCall then .NoSplit
  else .Leaf

/-- `(*astate).recordFunc` from `analyzer.go`: finalize the function named
`fname` — compute its category from the flags, handle a name collision by
bumping the counter and renaming the new entry to `name + "%" + counter`
keeping the more severe category, store, and reset the flags. -/
def astate.recordFunc (s : astate) (fname : String) : astate :=
  let disp := dispOf s
  match lookupTab s.funcs fname with
  | some odisp =>
      let collisions := s.collisions + 1
      let fname1 := fname ++ "%" ++ toString collisions
      let disp1 := if odisp.toNat > disp.toNat then odisp else disp
      { s with collisions := collisions,
               funcs := mapInsert s.funcs fname1 disp1,
               seenLong := false, seenShort := false, seenCall := false }
  | none =>
      { s with funcs := mapInsert s.funcs fname disp,
               seenLong := false, seenShort := false, seenCall := false }

/-- Tail of `(*astate).analyze`: fold over the table tallying the four
categories; an `Unknown` entry is Go's `log.Fatalf` (modeled as `none`).
The Go map iteration order is arbitrary; tallying is order-insensitive,
and the model uses list order. -/
def analyzeGo : List (String × FnType) → Int → Int → Int → Int →
    Option (Int × Int × Int × Int)
  | [], lv, ns, short, long => some (lv, ns, short, long)
  | (_, disp) :: t, lv, ns, short, long =>
      match disp with
      | .Unknown => none
      | .Leaf => analyzeGo t (lv + 1) ns short long
      | .NoSplit => analyzeGo t lv (ns + 1) short long
      | .SplitSmall => analyzeGo t lv ns (short + 1) long
      | .SplitLarge => analyzeGo t lv ns short (long + 1)

/-- `(*astate).analyze`: returns `(leaves, nonsplit, shortsplit, longsplit)`,
or `none` for the fatal `corrupted funcs table entry` branch. -/
def analyze (s : astate) : Option (Int × Int × Int × Int) :=
  analyzeGo s.funcs 0 0 0 0

/-! ### The scanner loop of `examineFile` -/

/-- The call checks run on every line after the function-start check: the
`pltjumpre` test, then `dircallre` (with the `__morestack` /
`__morestack_non_split` target comparisons) and otherwise `anycallre`. -/
def applyCallChecks (state : astate) (line : String) : astate :=
  let state :=
    if (reMatch pltjumpRe line.data).isSome then { state with seenCall := true }
    else state
  match reMatch dircallRe line.data with
  | some cap =>
      let tgt := String.mk cap
      let state := { state with seenCall := true }
      if tgt = "__morestack" then { state with seenShort := true }
      else if tgt = "__morestack_non_split" then { state with seenLong := true }
      else state
  | none =>
      if (reMatch anycallRe line.data).isSome then { state with seenCall := true }
      else state

/-- One iteration of the scanner loop: the pair is `(state, curfunc)`.
On a function-start match the previous function (if any) is recorded and
`curfunc` becomes the captured name; the call checks always run. -/
def processLine (acc : astate × String) (line : String) : astate × String :=
  match reMatch fnstartRe line.data with
  | some cap =>
      let state := if acc.2 ≠ "" then acc.1.recordFunc acc.2 else acc.1
      (applyCallChecks state line, String.mk cap)
  | none => (applyCallChecks acc.1 line, acc.2)

/-- The zero-valued `astate` created at the top of `examineFile`. -/
def initState : astate :=
  { seenShort := false, seenLong := false, seenCall := false,
    funcs := [], collisions := 0 }

/-- The scanner loop run from an arbitrary start state: fold the lines,
then record the final open function (if any). -/
def examineLinesFrom (start : astate) (lines : List String) : astate :=
  let r := lines.foldl processLine (start, "")
  if r.2 ≠ "" then r.1.recordFunc r.2 else r.1

/-- The pure core of `examineFile`: consume objdump's output lines and
produce the final `astate`. -/
def examineLines (lines : List String) : astate :=
  examineLinesFrom initState lines

/-- Process the body of one function named `name`: scan the body lines
starting with cleared flags, then finalize with `recordFunc` — the
`Finalize(name)` step for a single function whose body is `body`, run
against a pre-existing table `tbl` and collision counter `c`. -/
def runBody (tbl : List (String × FnType)) (c : Int) (name : String)
    (body : List String) : astate :=
  ((body.foldl processLine
    ({ seenShort := false, seenLong := false, seenCall := false,
       funcs := tbl, collisions := c }, name)).1).recordFunc name

/-- Every category stored in the table is a real category (`Unknown` is
the uninitialized sentinel). -/
def TabOk (m : List (String × FnType)) : Prop :=
  ∀ p ∈ m, p.2 ≠ FnType.Unknown

/-- The more severe of two categories under
`Leaf < NoSplit < SplitSmall < SplitLarge`. -/
def fnMax (a b : FnType) : FnType := if a.toNat ≤ b.toNat then b else a

/-- Number of table entries carrying category `t`. -/
def countCat (m : List (String × FnType)) (t : FnType) : Int :=
  ((m.filter (fun p => p.2 == t)).length : Int)

/-! ### Table lemmas -/

theorem lookupTab_append (xs ys : List (String × FnType)) (k : String) :
    lookupTab (xs ++ ys) k =
      match lookupTab xs k with
      | some v => some v
      | none => lookupTab ys k := by
  induction xs with
  | nil => rfl
  | cons a t ih =>
    obtain ⟨a1, a2⟩ := a
    by_cases h : a1 = k
    · simp [lookupTab, h]
    · simp only [List.cons_append, lookupTab, if_neg h]
      exact ih

theorem lookupTab_filter_ne (m : List (String × FnType)) (k k1 : String)
    (h : k1 ≠ k) :
    lookupTab (m.filter (fun p => p.1 != k)) k1 = lookupTab m k1 := by
  induction m with
  | nil => rfl
  | cons a t ih =>
    obtain ⟨a1, a2⟩ := a
    by_cases hak : a1 = k
    · subst hak
      have h1 : ¬ a1 = k1 := fun hh => h (hh ▸ rfl)
      simp [lookupTab, h1, ih]
    · simp only [List.filter_cons]
      rw [show (((a1, a2).1 != k) = true) from by simpa using hak]
      simp only [if_true, lookupTab]
      by_cases h2 : a1 = k1
      · simp [h2]
      · simp [h2, ih]

theorem lookupTab_mapInsert_self (m : List (String × FnType)) (k : String) (v : FnType) :
    lookupTab (mapInsert m k v) k = some v := by
  unfold mapInsert
  rw [lookupTab_append]
  cases hx : lookupTab (m.filter (fun p => p.1 != k)) k with
  | none => simp [lookupTab]
  | some w =>
    exfalso
    induction m with
    | nil => simp [lookupTab] at hx
    | cons a t ih =>
      obtain ⟨a1, a2⟩ := a
      by_cases hak : a1 = k
      · subst hak
        simp only [List.filter_cons, bne_self_eq_false] at hx
        simp only [Bool.false_eq_true, if_false] at hx
        exact ih hx
      · simp only [List.filter_cons] at hx
        rw [show (((a1, a2).1 != k) = true) from by simpa using hak] at hx
        simp only [if_true, lookupTab, if_neg hak] at hx
        exact ih hx

theorem lookupTab_mapInsert_ne (m : List (String × FnType)) (k k1 : String) (v : FnType)
    (h : k1 ≠ k) : lookupTab (mapInsert m k v) k1 = lookupTab m k1 := by
  unfold mapInsert
  rw [lookupTab_append, ← lookupTab_filter_ne m k k1 h]
  cases hx : lookupTab (m.filter (fun p => p.1 != k)) k1 with
  | none =>
    have hkk : ¬ (k = k1) := fun hh => h hh.symm
    simp [lookupTab, hkk]
  | some w => rfl

theorem lookupTab_mem (m : List (String × FnType)) (k : String) (v : FnType)
    (h : lookupTab m k = some v) : (k, v) ∈ m := by
  induction m with
  | nil => simp [lookupTab] at h
  | cons a t ih =>
    obtain ⟨a1, a2⟩ := a
    by_cases hak : a1 = k
    · subst hak
      rw [show lookupTab ((a1, a2) :: t) a1 = some a2 from by simp [lookupTab]] at h
      injection h with h
      subst h; simp
    · simp only [lookupTab, if_neg hak] at h
      simp [ih h]

theorem lookupTab_mapInsert_isSome (m : List (String × FnType)) (k k1 : String)
    (v : FnType) (h : (lookupTab m k1).isSome) :
    (lookupTab (mapInsert m k v) k1).isSome := by
  by_cases hk : k1 = k
  · subst hk; rw [lookupTab_mapInsert_self]; rfl
  · rw [lookupTab_mapInsert_ne m k k1 v hk]; exact h

/-! ### Flag evolution lemmas -/

theorem applyCallChecks_eq (st : astate) (l : String) :
    applyCallChecks st l =
      { st with seenCall := st.seenCall || isCallRelevant l,
                seenShort := st.seenShort || isShortCall l,
                seenLong := st.seenLong || isLongCall l } := by
  obtain ⟨ss, sl, sc, fs, co⟩ := st
  unfold applyCallChecks isCallRelevant isShortCall isLongCall isPltJump isDirCall isAnyCall
  cases hd : reMatch dircallRe l.data with
  | none =>
    cases hp : (reMatch pltjumpRe l.data).isSome <;>
      cases ha : (reMatch anycallRe l.data).isSome <;>
        simp [hd, hp, ha]
  | some cap =>
    by_cases h1 : String.mk cap = "__morestack"
    · have h2 : ¬ (String.mk cap = "__morestack_non_split") := by
        rw [h1]; decide
      cases hp : (reMatch pltjumpRe l.data).isSome <;>
        simp [hd, hp, h1, h2]
    · by_cases h2 : String.mk cap = "__morestack_non_split"
      · cases hp : (reMatch pltjumpRe l.data).isSome <;>
          simp [hd, hp, h1, h2]
      · cases hp : (reMatch pltjumpRe l.data).isSome <;>
          simp [hd, hp, h1, h2]

theorem applyCallChecks_funcs (st : astate) (l : String) :
    (applyCallChecks st l).funcs = st.funcs := by
  rw [applyCallChecks_eq]

theorem applyCallChecks_collisions (st : astate) (l : String) :
    (applyCallChecks st l).collisions = st.collisions := by
  rw [applyCallChecks_eq]

theorem processLine_no_fnstart (acc : astate × String) (l : String)
    (h : isFnStart l = false) :
    processLine acc l =
      ({ acc.1 with seenCall := acc.1.seenCall || isCallRelevant l,
                    seenShort := acc.1.seenShort || isShortCall l,
                    seenLong := acc.1.seenLong || isLongCall l }, acc.2) := by
  unfold isFnStart at h
  cases hm : reMatch fnstartRe l.data with
  | some cap => rw [hm] at h; simp at h
  | none =>
    unfold processLine
    rw [hm, applyCallChecks_eq]

theorem foldl_processLine_no_fnstart (body : List String) (st : astate) (cf : String)
    (h : ∀ l ∈ body, isFnStart l = false) :
    body.foldl processLine (st, cf) =
      ({ st with seenCall := st.seenCall || body.any isCallRelevant,
                 seenShort := st.seenShort || body.any isShortCall,
                 seenLong := st.seenLong || body.any isLongCall }, cf) := by
  induction body generalizing st with
  | nil => simp
  | cons a t ih =>
    rw [List.foldl_cons, processLine_no_fnstart (st, cf) a (h a (by simp)),
      ih _ (fun l hl => h l (by simp [hl]))]
    simp [Bool.or_assoc]

/-! ### `recordFunc` lemmas -/

theorem recordFunc_fresh (s : astate) (fname : String)
    (h : lookupTab s.funcs fname = none) :
    s.recordFunc fname =
      { s with funcs := mapInsert s.funcs fname (dispOf s),
               seenLong := false, seenShort := false, seenCall := false } := by
  unfold astate.recordFunc
  rw [h]

theorem recordFunc_coll (s : astate) (fname : String) (odisp : FnType)
    (h : lookupTab s.funcs fname = some odisp) :
    s.recordFunc fname =
      { s with collisions := s.collisions + 1,
               funcs := mapInsert s.funcs (fname ++ "%" ++ toString (s.collisions + 1))
                 (if odisp.toNat > (dispOf s).toNat then odisp else dispOf s),
               seenLong := false, seenShort := false, seenCall := false } := by
  unfold astate.recordFunc
  rw [h]

theorem ifGt_eq_fnMax (d o : FnType) :
    (if o.toNat > d.toNat then o else d) = fnMax d o := by
  unfold fnMax
  by_cases h1 : o.toNat > d.toNat
  · rw [if_pos h1, if_pos (Nat.le_of_lt h1)]
  · rw [if_neg h1]
    by_cases h2 : d.toNat ≤ o.toNat
    · rw [if_pos h2, FnType.toNat_inj (Nat.le_antisymm h2 (Nat.not_lt.mp h1))]
    · rw [if_neg h2]

theorem synthetic_ne (fname t : String) : ¬ (fname ++ "%" ++ t = fname) := by
  intro h
  have hl := congrArg (fun s => s.data.length) h
  simp only [String.data_append, List.length_append, List.length_singleton] at hl
  omega

theorem recordFunc_flags (s : astate) (fname : String) :
    (s.recordFunc fname).seenShort = false ∧ (s.recordFunc fname).seenLong = false ∧
      (s.recordFunc fname).seenCall = false := by
  unfold astate.recordFunc
  cases lookupTab s.funcs fname <;> exact ⟨rfl, rfl, rfl⟩

/-! ### Table invariant: no `Unknown` entries -/

theorem dispOf_ne_unknown (s : astate) : dispOf s ≠ FnType.Unknown := by
  unfold dispOf
  split_ifs <;> decide

theorem TabOk_mapInsert {m : List (String × FnType)} (h : TabOk m) {v : FnType}
    (hv : v ≠ FnType.Unknown) (k : String) : TabOk (mapInsert m k v) := by
  intro p hp
  rcases List.mem_append.mp hp with hp | hp
  · exact h p (List.mem_filter.mp hp).1
  · rw [List.mem_singleton.mp hp]; exact hv

theorem TabOk_recordFunc {s : astate} (h : TabOk s.funcs) (n : String) :
    TabOk (s.recordFunc n).funcs := by
  unfold astate.recordFunc
  cases hm : lookupTab s.funcs n with
  | none => exact TabOk_mapInsert h (dispOf_ne_unknown s) n
  | some odisp =>
    have ho : odisp ≠ FnType.Unknown := h (n, odisp) (lookupTab_mem _ _ _ hm)
    refine TabOk_mapInsert h ?_ _
    by_cases hgt : odisp.toNat > (dispOf s).toNat
    · rw [if_pos hgt]; exact ho
    · rw [if_neg hgt]; exact dispOf_ne_unknown s

theorem TabOk_processLine {acc : astate × String} (h : TabOk acc.1.funcs)
    (l : String) : TabOk (processLine acc l).1.funcs := by
  unfold processLine
  cases reMatch fnstartRe l.data with
  | some cap =>
    simp only [applyCallChecks_funcs]
    by_cases hc : acc.2 ≠ ""
    · rw [if_pos hc]; exact TabOk_recordFunc h acc.2
    · rw [if_neg hc]; exact h
  | none => simpa only [applyCallChecks_funcs] using h

theorem TabOk_foldl (ls : List String) (acc : astate × String)
    (h : TabOk acc.1.funcs) : TabOk (ls.foldl processLine acc).1.funcs := by
  induction ls generalizing acc with
  | nil => exact h
  | cons a t ih => exact ih _ (TabOk_processLine h a)

theorem TabOk_examineLinesFrom (start : astate) (h : TabOk start.funcs)
    (ls : List String) : TabOk (examineLinesFrom start ls).funcs := by
  unfold examineLinesFrom
  have h1 := TabOk_foldl ls (start, "") h
  by_cases hc : (ls.foldl processLine (start, "")).2 ≠ ""
  · rw [if_pos hc]; exact TabOk_recordFunc h1 _
  · rw [if_neg hc]; exact h1

theorem TabOk_examineLines (ls : List String) : TabOk (examineLines ls).funcs :=
  TabOk_examineLinesFrom initState (by intro p hp; simp [initState] at hp) ls

/-! ### `analyze` lemmas -/

theorem analyzeGo_eq (fs : List (String × FnType)) :
    ∀ (lv ns short long : Int), (∀ p ∈ fs, p.2 ≠ FnType.Unknown) →
      analyzeGo fs lv ns short long =
        some (lv + countCat fs .Leaf, ns + countCat fs .NoSplit,
              short + countCat fs .SplitSmall, long + countCat fs .SplitLarge) := by
  induction fs with
  | nil => intro lv ns short long _; simp [analyzeGo, countCat]
  | cons a t ih =>
    intro lv ns short long h
    obtain ⟨a1, a2⟩ := a
    have ht : ∀ p ∈ t, p.2 ≠ FnType.Unknown := fun p hp => h p (by simp [hp])
    have ha : a2 ≠ FnType.Unknown := h (a1, a2) (by simp)
    cases a2 with
    | Unknown => exact absurd rfl ha
    | Leaf =>
      rw [show analyzeGo ((a1, .Leaf) :: t) lv ns short long
          = analyzeGo t (lv + 1) ns short long from rfl, ih _ _ _ _ ht]
      simp only [countCat, List.filter_cons]
      norm_num
      push_cast
      omega
    | NoSplit =>
      rw [show analyzeGo ((a1, .NoSplit) :: t) lv ns short long
          = analyzeGo t lv (ns + 1) short long from rfl, ih _ _ _ _ ht]
      simp only [countCat, List.filter_cons]
      norm_num
      push_cast
      omega
    | SplitSmall =>
      rw [show analyzeGo ((a1, .SplitSmall) :: t) lv ns short long
          = analyzeGo t lv ns (short + 1) long from rfl, ih _ _ _ _ ht]
      simp only [countCat, List.filter_cons]
      norm_num
      push_cast
      omega
    | SplitLarge =>
      rw [show analyzeGo ((a1, .SplitLarge) :: t) lv ns short long
          = analyzeGo t lv ns short (long + 1) from rfl, ih _ _ _ _ ht]
      simp only [countCat, List.filter_cons]
      norm_num
      push_cast
      omega

theorem countCat_sum (fs : List (String × FnType))
    (h : ∀ p ∈ fs, p.2 ≠ FnType.Unknown) :
    countCat fs .Leaf + countCat fs .NoSplit + countCat fs .SplitSmall +
      countCat fs .SplitLarge = (fs.length : Int) := by
  induction fs with
  | nil => simp [countCat]
  | cons a t ih =>
    obtain ⟨a1, a2⟩ := a
    have ht := ih (fun p hp => h p (by simp [hp]))
    have ha : a2 ≠ FnType.Unknown := h (a1, a2) (by simp)
    cases a2 with
    | Unknown => exact absurd rfl ha
    | _ =>
      simp only [countCat, List.filter_cons, List.length_cons] at ht ⊢
      norm_num at ht ⊢
      push_cast at ht ⊢
      omega

theorem analyze_eq (s : astate) (h : TabOk s.funcs) :
    analyze s = some (countCat s.funcs .Leaf, countCat s.funcs .NoSplit,
      countCat s.funcs .SplitSmall, countCat s.funcs .SplitLarge) := by
  unfold analyze
  rw [analyzeGo_eq s.funcs 0 0 0 0 h]
  norm_num

/-! ### The category computed for a single function body -/

theorem runBody_lookup (tbl : List (String × FnType)) (c : Int) (name : String)
    (body : List String) (hfn : ∀ l ∈ body, isFnStart l = false)
    (hfresh : lookupTab tbl name = none) :
    lookupTab (runBody tbl c name body).funcs name =
      some (if body.any isLongCall then FnType.SplitLarge
            else if body.any isShortCall then FnType.SplitSmall
            else if body.any isCallRelevant then FnType.NoSplit
            else FnType.Leaf) := by
  unfold runBody
  rw [foldl_processLine_no_fnstart body _ name hfn]
  set st1 : astate :=
    { seenShort := false || body.any isShortCall,
      seenLong := false || body.any isLongCall,
      seenCall := false || body.any isCallRelevant,
      funcs := tbl, collisions := c } with hst1
  have hlk : lookupTab st1.funcs name = none := hfresh
  rw [recordFunc_fresh st1 name hlk]
  show lookupTab (mapInsert tbl name (dispOf st1)) name = _
  rw [lookupTab_mapInsert_self]
  unfold dispOf
  simp only [hst1, Bool.false_or]

/-! ### Structure of successful matches (used for `pltjumpre` vs
`dircallre` mutual exclusion) -/

theorem reMatch_star_decomp (k : CKind) (ts : List RTok) :
    ∀ cs : List Char, (reMatch (.star k :: ts) cs).isSome = true →
      ∃ w cs1, cs = w ++ cs1 ∧ (∀ c ∈ w, k.matchesChar c = true) ∧
        (reMatch ts cs1).isSome = true := by
  intro cs
  induction cs with
  | nil =>
    intro h
    rw [reMatch_star_nil] at h
    exact ⟨[], [], rfl, by simp, h⟩
  | cons c cs ih =>
    intro h
    rw [reMatch_star_cons] at h
    by_cases hm : k.matchesChar c
    · rw [if_pos hm] at h
      cases hx : reMatch (.star k :: ts) cs with
      | some cap =>
        obtain ⟨w, cs1, he, hw, hr⟩ := ih (by rw [hx]; rfl)
        refine ⟨c :: w, cs1, by simp [he], ?_, hr⟩
        intro x hx2
        rcases List.mem_cons.mp hx2 with h1 | h1
        · subst h1; exact hm
        · exact hw x h1
      | none =>
        rw [hx] at h
        exact ⟨[], c :: cs, rfl, by simp, by simpa using h⟩
    · rw [if_neg hm] at h
      exact ⟨[], c :: cs, rfl, by simp, h⟩

theorem reMatch_plus_decomp (k : CKind) (ts : List RTok) (cs : List Char)
    (h : (reMatch (.plus k :: ts) cs).isSome = true) :
    ∃ r cs1, cs = r ++ cs1 ∧ r ≠ [] ∧ (∀ c ∈ r, k.matchesChar c = true) ∧
      (reMatch ts cs1).isSome = true := by
  cases cs with
  | nil => rw [reMatch_plus_nil] at h; simp at h
  | cons c cs =>
    rw [reMatch_plus_cons] at h
    by_cases hm : k.matchesChar c
    · rw [if_pos hm] at h
      obtain ⟨w, cs1, he, hw, hr⟩ := reMatch_star_decomp k ts cs h
      refine ⟨c :: w, cs1, by simp [he], by simp, ?_, hr⟩
      intro x hx2
      rcases List.mem_cons.mp hx2 with h1 | h1
      · subst h1; exact hm
      · exact hw x h1
    · rw [if_neg hm] at h; simp at h

theorem reMatch_lit_decomp (a : Char) (ts : List RTok) (cs : List Char)
    (h : (reMatch (.one (.lit a) :: ts) cs).isSome = true) :
    ∃ cs1, cs = a :: cs1 ∧ (reMatch ts cs1).isSome = true := by
  cases cs with
  | nil => rw [reMatch_one_nil] at h; simp at h
  | cons c cs =>
    rw [reMatch_one_cons] at h
    by_cases hm : CKind.matchesChar (.lit a) c
    · rw [if_pos hm] at h
      have hac : a = c := by simpa [CKind.matchesChar] using hm
      exact ⟨cs, by rw [hac], h⟩
    · rw [if_neg hm] at h; simp at h

/-- Shape forced by a `dircallre` match: leading whitespace, a nonempty
non-whitespace run ending in a colon, whitespace, then the literal
`callq` (whose first character is `'c'`). -/
theorem dircall_decomp (cs : List Char) (h : (reMatch dircallRe cs).isSome = true) :
    ∃ w r u t, cs = w ++ r ++ ':' :: u ++ 'c' :: t ∧
      (∀ c ∈ w, isSpaceGo c = true) ∧ r ≠ [] ∧ (∀ c ∈ r, isSpaceGo c = false) ∧
      u ≠ [] ∧ (∀ c ∈ u, isSpaceGo c = true) := by
  unfold dircallRe at h
  obtain ⟨w, cs1, he1, hw, h⟩ := reMatch_star_decomp .spc _ cs h
  obtain ⟨r, cs2, he2, hrne, hr, h⟩ := reMatch_plus_decomp .nspc _ cs1 h
  obtain ⟨cs3, he3, h⟩ := reMatch_lit_decomp ':' _ cs2 h
  obtain ⟨u, cs4, he4, hune, hu, h⟩ := reMatch_plus_decomp .spc _ cs3 h
  obtain ⟨cs5, he5, _⟩ := reMatch_lit_decomp 'c' _ cs4 h
  refine ⟨w, r, u, cs5, ?_, hw, hrne, ?_, hune, hu⟩
  · subst he5 he4 he3 he2 he1; simp
  · intro c hc
    have := hr c hc
    simpa [CKind.matchesChar] using this

/-- Shape forced by a `pltjumpre` match: same head shape, but the literal
after the whitespace is `jmpq` (first character `'j'`). -/
theorem pltjump_decomp (cs : List Char) (h : (reMatch pltjumpRe cs).isSome = true) :
    ∃ w r u t, cs = w ++ r ++ ':' :: u ++ 'j' :: t ∧
      (∀ c ∈ w, isSpaceGo c = true) ∧ r ≠ [] ∧ (∀ c ∈ r, isSpaceGo c = false) ∧
      u ≠ [] ∧ (∀ c ∈ u, isSpaceGo c = true) := by
  unfold pltjumpRe at h
  obtain ⟨w, cs1, he1, hw, h⟩ := reMatch_star_decomp .spc _ cs h
  obtain ⟨r, cs2, he2, hrne, hr, h⟩ := reMatch_plus_decomp .nspc _ cs1 h
  obtain ⟨cs3, he3, h⟩ := reMatch_lit_decomp ':' _ cs2 h
  obtain ⟨u, cs4, he4, hune, hu, h⟩ := reMatch_plus_decomp .spc _ cs3 h
  obtain ⟨cs5, he5, _⟩ := reMatch_lit_decomp 'j' _ cs4 h
  refine ⟨w, r, u, cs5, ?_, hw, hrne, ?_, hune, hu⟩
  · subst he5 he4 he3 he2 he1; simp
  · intro c hc
    have := hr c hc
    simpa [CKind.matchesChar] using this

/-- If two splittings of the same character list consist of a run
satisfying `p` followed by a character violating `p`, the splittings
coincide. -/
theorem runEq (p : Char → Bool) :
    ∀ (w : List Char) (c : Char) (t w1 : List Char) (c1 : Char) (t1 : List Char),
      w ++ c :: t = w1 ++ c1 :: t1 →
      (∀ a ∈ w, p a = true) → (∀ a ∈ w1, p a = true) →
      p c = false → p c1 = false →
      w = w1 ∧ c = c1 ∧ t = t1 := by
  intro w
  induction w with
  | nil =>
    intro c t w1 c1 t1 he hw hw1 hc hc1
    cases w1 with
    | nil =>
      simp only [List.nil_append, List.cons.injEq] at he
      exact ⟨rfl, he.1, he.2⟩
    | cons b w1 =>
      simp only [List.nil_append, List.cons_append, List.cons.injEq] at he
      obtain ⟨hcb, _⟩ := he
      subst hcb
      have := hw1 c (by simp)
      rw [hc] at this
      exact absurd this (by simp)
  | cons a w ih =>
    intro c t w1 c1 t1 he hw hw1 hc hc1
    cases w1 with
    | nil =>
      simp only [List.cons_append, List.nil_append, List.cons.injEq] at he
      obtain ⟨hab, _⟩ := he
      subst hab
      have := hw a (by simp)
      rw [hc1] at this
      exact absurd this (by simp)
    | cons b w1 =>
      simp only [List.cons_append, List.cons.injEq] at he
      obtain ⟨hab, he2⟩ := he
      obtain ⟨h1, h2, h3⟩ := ih c t w1 c1 t1 he2
        (fun x hx => hw x (by simp [hx])) (fun x hx => hw1 x (by simp [hx])) hc hc1
      exact ⟨by rw [hab, h1], h2, h3⟩

/-- A line cannot match both `pltjumpre` and `dircallre`: both anchor the
first token to end in a colon followed by whitespace, and then require
different literal mnemonics (`jmpq` vs `callq`). -/
theorem plt_dircall_mutex (cs : List Char)
    (hp : (reMatch pltjumpRe cs).isSome = true)
    (hd : (reMatch dircallRe cs).isSome = true) : False := by
  obtain ⟨w, r, u, t, he, hw, hrne, hr, hune, hu⟩ := pltjump_decomp cs hp
  obtain ⟨w1, r1, u1, t1, he1, hw1, hrne1, hr1, hune1, hu1⟩ := dircall_decomp cs hd
  obtain ⟨r0, rr, hre⟩ := List.exists_cons_of_ne_nil hrne
  obtain ⟨r01, rr1, hre1⟩ := List.exists_cons_of_ne_nil hrne1
  obtain ⟨u0, uu, hue⟩ := List.exists_cons_of_ne_nil hune
  obtain ⟨u01, uu1, hue1⟩ := List.exists_cons_of_ne_nil hune1
  subst hre hre1 hue hue1
  rw [he] at he1
  have hs1 : w ++ r0 :: (rr ++ ':' :: u0 :: (uu ++ 'j' :: t)) =
      w1 ++ r01 :: (rr1 ++ ':' :: u01 :: (uu1 ++ 'c' :: t1)) := by
    simpa using he1
  obtain ⟨-, hr0eq, he2⟩ := runEq isSpaceGo w r0 _ w1 r01 _ hs1 hw hw1
    (by simpa using hr r0 (by simp)) (by simpa using hr1 r01 (by simp))
  have hs2 : (rr ++ [':']) ++ u0 :: (uu ++ 'j' :: t) =
      (rr1 ++ [':']) ++ u01 :: (uu1 ++ 'c' :: t1) := by
    simpa using he2
  obtain ⟨-, hu0eq, he3⟩ := runEq (fun a => !isSpaceGo a) (rr ++ [':']) u0 _
    (rr1 ++ [':']) u01 _ hs2
    (by
      intro x hx
      rcases List.mem_append.mp hx with h1 | h1
      · simpa using hr x (by simp [h1])
      · rw [List.mem_singleton.mp h1]; decide)
    (by
      intro x hx
      rcases List.mem_append.mp hx with h1 | h1
      · simpa using hr1 x (by simp [h1])
      · rw [List.mem_singleton.mp h1]; decide)
    (by simpa using hu u0 (by simp))
    (by simpa using hu1 u01 (by simp))
  obtain ⟨-, hjc, -⟩ := runEq isSpaceGo uu 'j' t uu1 'c' t1 he3
    (fun x hx => hu x (by simp [hx])) (fun x hx => hu1 x (by simp [hx]))
    (by decide) (by decide)
  exact absurd hjc (by decide)

/-- A `pltjumpre` line never matches `dircallre`, so it can set neither
`seenShort` nor `seenLong`. -/
theorem pltJump_not_dirCall (l : String) (h : isPltJump l = true) :
    reMatch dircallRe l.data = none := by
  cases hd : reMatch dircallRe l.data with
  | none => rfl
  | some cap =>
    exact (plt_dircall_mutex l.data (by unfold isPltJump at h; exact h)
      (by rw [hd]; rfl)).elim

/-! ### Claim theorems -/

/-- C1: For every function body in the disassembly line stream (scanned
with cleared flags and finalized under a fresh name), the finalized
category is `SplitLarge` if a direct call to `__morestack_non_split`
appeared in the body; otherwise `SplitSmall` if a direct call to
`__morestack` appeared; otherwise `NoSplit` if any call-relevant line
appeared; otherwise `Leaf`. -/
theorem claim1_body_category (tbl : List (String × FnType)) (c : Int) (name : String)
    (body : List String) (hfn : ∀ l ∈ body, isFnStart l = false)
    (hfresh : lookupTab tbl name = none) :
    lookupTab (runBody tbl c name body).funcs name =
      some (if body.any isLongCall then FnType.SplitLarge
            else if body.any isShortCall then FnType.SplitSmall
            else if body.any isCallRelevant then FnType.NoSplit
            else FnType.Leaf) :=
  runBody_lookup tbl c name body hfn hfresh

theorem claim1_witness :
    lookupTab (runBody [] 0 "f"
      ["  1:\tcallq  2 <__morestack>", "  2:\tcallq  3 <g>"]).funcs "f" =
      some FnType.SplitSmall := by
  rw [claim1_body_category [] 0 "f"
    ["  1:\tcallq  2 <__morestack>", "  2:\tcallq  3 <g>"] (by decide) rfl]
  decide

/-- C2: Finalizing a name already present in the table increments the
collision counter by one, stores the new observation under the synthetic
key `name ++ "%" ++ counter`, attaches to the synthetic key the maximum
(by severity) of the new and previously stored category, and leaves the
entry under the original name unchanged. -/
theorem claim2_collision (s : astate) (fname : String) (odisp : FnType)
    (h : lookupTab s.funcs fname = some odisp) :
    (s.recordFunc fname).collisions = s.collisions + 1 ∧
    lookupTab (s.recordFunc fname).funcs
      (fname ++ "%" ++ toString (s.collisions + 1)) = some (fnMax (dispOf s) odisp) ∧
    lookupTab (s.recordFunc fname).funcs fname = some odisp := by
  rw [recordFunc_coll s fname odisp h]
  refine ⟨rfl, ?_, ?_⟩
  · show lookupTab (mapInsert s.funcs (fname ++ "%" ++ toString (s.collisions + 1)) _)
      (fname ++ "%" ++ toString (s.collisions + 1)) = _
    rw [lookupTab_mapInsert_self, ifGt_eq_fnMax]
  · show lookupTab (mapInsert s.funcs (fname ++ "%" ++ toString (s.collisions + 1)) _)
      fname = _
    rw [lookupTab_mapInsert_ne _ _ _ _
      (fun heq => synthetic_ne fname (toString (s.collisions + 1)) heq.symm)]
    exact h

theorem claim2_witness :
    (astate.recordFunc ⟨true, false, true, [("f", FnType.NoSplit)], 0⟩ "f").collisions = 1 ∧
    lookupTab (astate.recordFunc ⟨true, false, true, [("f", FnType.NoSplit)], 0⟩ "f").funcs
      "f%1" = some FnType.SplitSmall ∧
    lookupTab (astate.recordFunc ⟨true, false, true, [("f", FnType.NoSplit)], 0⟩ "f").funcs
      "f" = some FnType.NoSplit := by
  have h := claim2_collision ⟨true, false, true, [("f", FnType.NoSplit)], 0⟩ "f"
    FnType.NoSplit (by decide)
  refine ⟨h.1, ?_, h.2.2⟩
  have h2 := h.2.1
  rw [show (("f" : String) ++ "%" ++ toString ((0 : Int) + 1)) = "f%1" from by decide] at h2
  rw [h2]
  decide

/-- C3 (amended): On a function-start line, any currently open function is
finalized before the new one opens, and finalization resets the three
flags; but when no function is open the flags are NOT reset, so call lines
preceding the first function-start line DO carry into the first opened
function — scanning `pre ++ rest` (with `pre` free of function-start
lines) equals scanning `rest` with initial flags set to exactly the calls
seen in `pre`. -/
theorem claim3_flag_carryover (pre : List String) (l : String) (rest : List String)
    (hpre : ∀ p ∈ pre, isFnStart p = false) (hl : isFnStart l = true) :
    examineLines (pre ++ l :: rest) =
      examineLinesFrom
        { initState with seenCall := pre.any isCallRelevant,
                         seenShort := pre.any isShortCall,
                         seenLong := pre.any isLongCall } (l :: rest) ∧
    (∀ (st : astate) (cf : String) (cap : List Char), cf ≠ "" →
      reMatch fnstartRe l.data = some cap →
      processLine (st, cf) l = (applyCallChecks (st.recordFunc cf) l, String.mk cap)) ∧
    (∀ (st : astate) (cf : String),
      (st.recordFunc cf).seenShort = false ∧ (st.recordFunc cf).seenLong = false ∧
        (st.recordFunc cf).seenCall = false) := by
  refine ⟨?_, ?_, fun st cf => recordFunc_flags st cf⟩
  · unfold examineLines examineLinesFrom
    rw [List.foldl_append, foldl_processLine_no_fnstart pre initState "" hpre]
    simp [initState]
  · intro st cf cap hcf hm
    simp only [processLine, hm]
    rw [if_pos (by exact hcf)]

/-- C3 counterexample: a direct-call line before the first function-start
line changes the first function's category (`NoSplit` instead of the
`Leaf` it gets without that line), contradicting the claim that such
lines never affect the first opened function. -/
theorem claim3_counterexample :
    lookupTab (examineLines
      ["  1:\tcallq  2 <x>", "0000000000000010 <foo>:"]).funcs "foo" =
      some FnType.NoSplit ∧
    lookupTab (examineLines ["0000000000000010 <foo>:"]).funcs "foo" =
      some FnType.Leaf := by
  decide

theorem claim3_witness :
    examineLines (["  1:\tcallq  2 <x>"] ++ "0000000000000010 <foo>:" :: []) =
      examineLinesFrom
        { initState with seenCall := ["  1:\tcallq  2 <x>"].any isCallRelevant,
                         seenShort := ["  1:\tcallq  2 <x>"].any isShortCall,
                         seenLong := ["  1:\tcallq  2 <x>"].any isLongCall }
        ("0000000000000010 <foo>:" :: []) :=
  (claim3_flag_carryover ["  1:\tcallq  2 <x>"] "0000000000000010 <foo>:" []
    (by decide) (by decide)).1

/-- C4: every category written into the table by finalization is one of
the four real categories, never the `Unknown` sentinel, so the fatal
`corrupted funcs table entry` branch of `analyze` is unreachable: for
every input line stream `analyze` returns counts. -/
theorem claim4_no_unknown (ls : List String) :
    TabOk (examineLines ls).funcs ∧ (analyze (examineLines ls)).isSome = true := by
  have h := TabOk_examineLines ls
  refine ⟨h, ?_⟩
  rw [analyze_eq _ h]
  rfl

/-- C5: a PLT-jump line sets only the any-call flag (processing it is
exactly `seenCall := true`), and a function body whose call-relevant
lines are all PLT jumps (at least one) finalizes as `NoSplit`. -/
theorem claim5_plt_only_noSplit :
    (∀ (st : astate) (cf l : String), isPltJump l = true → isFnStart l = false →
      processLine (st, cf) l = ({ st with seenCall := true }, cf)) ∧
    (∀ (tbl : List (String × FnType)) (c : Int) (name : String) (body : List String),
      (∀ l ∈ body, isFnStart l = false) →
      (∀ l ∈ body, isCallRelevant l = true → isPltJump l = true) →
      (∃ l ∈ body, isPltJump l = true) →
      lookupTab tbl name = none →
      lookupTab (runBody tbl c name body).funcs name = some FnType.NoSplit) := by
  have key : ∀ l : String, isPltJump l = true →
      isShortCall l = false ∧ isLongCall l = false ∧ isCallRelevant l = true := by
    intro l h
    have hd := pltJump_not_dirCall l h
    refine ⟨?_, ?_, ?_⟩
    · unfold isShortCall; rw [hd]
    · unfold isLongCall; rw [hd]
    · unfold isCallRelevant; rw [h]; rfl
  have notdir : ∀ l : String, isCallRelevant l = false → isShortCall l = false ∧
      isLongCall l = false := by
    intro l h
    have hdc : isDirCall l = false := by
      cases hd : isDirCall l
      · rfl
      · exfalso
        have hcr : isCallRelevant l = true := by
          unfold isCallRelevant; rw [hd]; simp
        rw [h] at hcr
        exact Bool.noConfusion hcr
    unfold isDirCall at hdc
    cases hm : reMatch dircallRe l.data with
    | some cap => rw [hm] at hdc; simp at hdc
    | none =>
      constructor
      · unfold isShortCall; rw [hm]
      · unfold isLongCall; rw [hm]
  constructor
  · intro st cf l hplt hfn
    rw [processLine_no_fnstart (st, cf) l hfn]
    obtain ⟨h1, h2, h3⟩ := key l hplt
    rw [h1, h2, h3]
    obtain ⟨ss, sl2, sc, fs, co⟩ := st
    simp
  · intro tbl c name body hfn hrel hex hfresh
    rw [runBody_lookup tbl c name body hfn hfresh]
    have hlong : body.any isLongCall = false := by
      rw [List.any_eq_false]
      intro x hx
      by_cases hcx : isCallRelevant x = true
      · simp [(key x (hrel x hx hcx)).2.1]
      · simp [(notdir x (by revert hcx; cases isCallRelevant x <;> simp)).2]
    have hshort : body.any isShortCall = false := by
      rw [List.any_eq_false]
      intro x hx
      by_cases hcx : isCallRelevant x = true
      · simp [(key x (hrel x hx hcx)).1]
      · simp [(notdir x (by revert hcx; cases isCallRelevant x <;> simp)).1]
    have hcall : body.any isCallRelevant = true := by
      rw [List.any_eq_true]
      obtain ⟨l, hl, hplt⟩ := hex
      exact ⟨l, hl, (key l hplt).2.2⟩
    simp [hlong, hshort, hcall]

theorem claim5_witness :
    lookupTab (runBody [] 0 "f" ["  10:\tjmpq  20 <x@plt>"]).funcs "f" =
      some FnType.NoSplit :=
  claim5_plt_only_noSplit.2 [] 0 "f" ["  10:\tjmpq  20 <x@plt>"]
    (by decide) (by decide) (by decide) rfl

/-- C6: Scenario A — the three-line stream yields `foo ↦ SplitSmall`,
`bar ↦ Leaf`, a two-entry table, and counts
`(leaf, nonsplit, morestack, morestack_non_split) = (1, 0, 1, 0)`. -/
theorem claim6_scenarioA :
    lookupTab (examineLines ["0000000000001000 <foo>:",
      "  1001:\tcallq  2000 <__morestack>", "0000000000002000 <bar>:"]).funcs "foo" =
      some FnType.SplitSmall ∧
    lookupTab (examineLines ["0000000000001000 <foo>:",
      "  1001:\tcallq  2000 <__morestack>", "0000000000002000 <bar>:"]).funcs "bar" =
      some FnType.Leaf ∧
    (examineLines ["0000000000001000 <foo>:",
      "  1001:\tcallq  2000 <__morestack>", "0000000000002000 <bar>:"]).funcs.length = 2 ∧
    analyze (examineLines ["0000000000001000 <foo>:",
      "  1001:\tcallq  2000 <__morestack>", "0000000000002000 <bar>:"]) =
      some (1, 0, 1, 0) := by
  decide

/-- C7: for a table free of the sentinel, `analyze` returns exactly the
four per-category tallies, and their sum is the number of table entries
(synthetic collision keys included). -/
theorem claim7_partition (s : astate) (hnd : (s.funcs.map Prod.fst).Nodup)
    (hok : TabOk s.funcs) :
    analyze s = some (countCat s.funcs .Leaf, countCat s.funcs .NoSplit,
      countCat s.funcs .SplitSmall, countCat s.funcs .SplitLarge) ∧
    countCat s.funcs .Leaf + countCat s.funcs .NoSplit + countCat s.funcs .SplitSmall +
      countCat s.funcs .SplitLarge = (s.funcs.length : Int) :=
  ⟨analyze_eq s hok, countCat_sum s.funcs hok⟩

theorem claim7_witness :
    analyze ⟨false, false, false, [("a", FnType.Leaf), ("b", FnType.SplitLarge)], 0⟩ =
      some (countCat [("a", FnType.Leaf), ("b", FnType.SplitLarge)] .Leaf,
        countCat [("a", FnType.Leaf), ("b", FnType.SplitLarge)] .NoSplit,
        countCat [("a", FnType.Leaf), ("b", FnType.SplitLarge)] .SplitSmall,
        countCat [("a", FnType.Leaf), ("b", FnType.SplitLarge)] .SplitLarge) ∧
    countCat [("a", FnType.Leaf), ("b", FnType.SplitLarge)] .Leaf +
      countCat [("a", FnType.Leaf), ("b", FnType.SplitLarge)] .NoSplit +
      countCat [("a", FnType.Leaf), ("b", FnType.SplitLarge)] .SplitSmall +
      countCat [("a", FnType.Leaf), ("b", FnType.SplitLarge)] .SplitLarge =
      (([("a", FnType.Leaf), ("b", FnType.SplitLarge)] :
        List (String × FnType)).length : Int) :=
  claim7_partition ⟨false, false, false, [("a", FnType.Leaf), ("b", FnType.SplitLarge)], 0⟩
    (by decide) (by unfold TabOk; decide)

/-- C8: a body containing a `__morestack` call, any generic calls, and no
long-helper call finalizes as `SplitSmall`, and any permutation of such a
body yields the identical category. -/
theorem claim8_perm (tbl : List (String × FnType)) (c : Int) (name : String)
    (body1 body2 : List String) (hperm : body1.Perm body2)
    (hfn : ∀ l ∈ body1, isFnStart l = false)
    (hshort : ∃ l ∈ body1, isShortCall l = true)
    (hlong : ∀ l ∈ body1, isLongCall l = false)
    (hfresh : lookupTab tbl name = none) :
    lookupTab (runBody tbl c name body1).funcs name = some FnType.SplitSmall ∧
    lookupTab (runBody tbl c name body2).funcs name = some FnType.SplitSmall := by
  have main : ∀ b : List String, (∀ l ∈ b, isFnStart l = false) →
      (∃ l ∈ b, isShortCall l = true) → (∀ l ∈ b, isLongCall l = false) →
      lookupTab (runBody tbl c name b).funcs name = some FnType.SplitSmall := by
    intro b h1 h2 h3
    rw [runBody_lookup tbl c name b h1 hfresh]
    have ha : b.any isLongCall = false := by
      rw [List.any_eq_false]
      intro x hx
      simp [h3 x hx]
    have hs : b.any isShortCall = true := by
      rw [List.any_eq_true]
      obtain ⟨l, hl, hsl⟩ := h2
      exact ⟨l, hl, hsl⟩
    simp [ha, hs]
  refine ⟨main body1 hfn hshort hlong, main body2 ?_ ?_ ?_⟩
  · exact fun l hl => hfn l (hperm.mem_iff.mpr hl)
  · obtain ⟨l, hl, hsl⟩ := hshort
    exact ⟨l, hperm.mem_iff.mp hl, hsl⟩
  · exact fun l hl => hlong l (hperm.mem_iff.mpr hl)

theorem claim8_witness :
    lookupTab (runBody [] 0 "f"
      ["  1:\tcallq  2 <g>", "  2:\tcallq  3 <__morestack>"]).funcs "f" =
      some FnType.SplitSmall ∧
    lookupTab (runBody [] 0 "f"
      ["  2:\tcallq  3 <__morestack>", "  1:\tcallq  2 <g>"]).funcs "f" =
      some FnType.SplitSmall :=
  claim8_perm [] 0 "f" ["  1:\tcallq  2 <g>", "  2:\tcallq  3 <__morestack>"]
    ["  2:\tcallq  3 <__morestack>", "  1:\tcallq  2 <g>"]
    (by decide) (by decide) (by decide) (by decide) rfl

/-- C9: the collision counter is global to the file, not per-name: two
successive collisions on distinct names `a` then `b` bump it to `c+1`
then `c+2` and produce synthetic keys `a%(c+1)` and `b%(c+2)`. -/
theorem claim9_global_counter (s : astate) (a b : String) (da db : FnType)
    (ha : lookupTab s.funcs a = some da) (hb : lookupTab s.funcs b = some db)
    (hab : a ≠ b) :
    (s.recordFunc a).collisions = s.collisions + 1 ∧
    ((s.recordFunc a).recordFunc b).collisions = s.collisions + 2 ∧
    (lookupTab ((s.recordFunc a).recordFunc b).funcs
      (a ++ "%" ++ toString (s.collisions + 1))).isSome = true ∧
    (lookupTab ((s.recordFunc a).recordFunc b).funcs
      (b ++ "%" ++ toString (s.collisions + 2))).isSome = true := by
  have h1 := recordFunc_coll s a da ha
  have ha1 : lookupTab (s.recordFunc a).funcs (a ++ "%" ++ toString (s.collisions + 1)) =
      some (if da.toNat > (dispOf s).toNat then da else dispOf s) := by
    rw [h1]
    exact lookupTab_mapInsert_self _ _ _
  have hb1 : (lookupTab (s.recordFunc a).funcs b).isSome = true := by
    rw [h1]
    exact lookupTab_mapInsert_isSome _ _ _ _ (by rw [hb]; rfl)
  obtain ⟨db1, hdb1⟩ := Option.isSome_iff_exists.mp hb1
  have hc1 : (s.recordFunc a).collisions = s.collisions + 1 := by rw [h1]
  have h2 := recordFunc_coll (s.recordFunc a) b db1 hdb1
  have hc2 : ((s.recordFunc a).recordFunc b).collisions = s.collisions + 2 := by
    rw [h2, hc1]
    ring
  have hkey2 : b ++ "%" ++ toString ((s.recordFunc a).collisions + 1) =
      b ++ "%" ++ toString (s.collisions + 2) := by
    rw [hc1, show s.collisions + 1 + 1 = s.collisions + 2 from by ring]
  refine ⟨hc1, hc2, ?_, ?_⟩
  · rw [h2]
    exact lookupTab_mapInsert_isSome _ _ _ _ (by rw [ha1]; rfl)
  · rw [h2, ← hkey2]
    rw [lookupTab_mapInsert_self]
    rfl

theorem claim9_witness :
    (astate.recordFunc ⟨false, false, false,
      [("a", FnType.Leaf), ("b", FnType.NoSplit)], 0⟩ "a").collisions = 0 + 1 ∧
    ((astate.recordFunc ⟨false, false, false,
      [("a", FnType.Leaf), ("b", FnType.NoSplit)], 0⟩ "a").recordFunc "b").collisions =
      0 + 2 ∧
    (lookupTab ((astate.recordFunc ⟨false, false, false,
      [("a", FnType.Leaf), ("b", FnType.NoSplit)], 0⟩ "a").recordFunc "b").funcs
      ("a" ++ "%" ++ toString ((0 : Int) + 1))).isSome = true ∧
    (lookupTab ((astate.recordFunc ⟨false, false, false,
      [("a", FnType.Leaf), ("b", FnType.NoSplit)], 0⟩ "a").recordFunc "b").funcs
      ("b" ++ "%" ++ toString ((0 : Int) + 2))).isSome = true :=
  claim9_global_counter ⟨false, false, false,
    [("a", FnType.Leaf), ("b", FnType.NoSplit)], 0⟩ "a" "b" FnType.Leaf FnType.NoSplit
    (by decide) (by decide) (by decide)

/-- C10: synthetic collision keys are not checked against existing
entries: with functions named `f%1`, `f`, `f` (in that order), the second
`f`'s renamed entry lands on key `f%1` and overwrites the literal `f%1`
function's entry (visibly: `f%1` held `NoSplit` before the last
finalization and `Leaf` after), so the final table has 2 entries although
3 functions were finalized, and the category counts sum to 2 < 3. -/
theorem claim10_synthetic_overwrite :
    lookupTab (examineLines ["0000000000001000 <f%1>:", "  1001:\tcallq  1002 <g>",
      "0000000000001100 <f>:", "0000000000001200 <f>:"]).funcs "f%1" =
      some FnType.Leaf ∧
    lookupTab (examineLines ["0000000000001000 <f%1>:", "  1001:\tcallq  1002 <g>",
      "0000000000001100 <f>:"]).funcs "f%1" = some FnType.NoSplit ∧
    (examineLines ["0000000000001000 <f%1>:", "  1001:\tcallq  1002 <g>",
      "0000000000001100 <f>:", "0000000000001200 <f>:"]).funcs.length = 2 ∧
    ["0000000000001000 <f%1>:", "  1001:\tcallq  1002 <g>",
      "0000000000001100 <f>:", "0000000000001200 <f>:"].countP isFnStart = 3 ∧
    analyze (examineLines ["0000000000001000 <f%1>:", "  1001:\tcallq  1002 <g>",
      "0000000000001100 <f>:", "0000000000001200 <f>:"]) = some (2, 0, 0, 0) := by
  decide
